import Mathlib

/-!
# Verification of the hakrawler_plus crawler (src/hakrawler.go)

This file gives a shallow embedding, in Lean 4, of the parts of
`src/hakrawler.go` (and of the small pieces of its two external
dependencies that the program's observable behaviour goes through:
Go's `net/url` package and the gocolly/colly v2 crawling library)
that are needed to settle the specification claims, and proves or
refutes each claim against that embedding.

Strings are modelled as `List Char` in the core definitions, with
`String` wrappers at the statement boundary.  Go maps are modelled as
association lists with last-write-wins insertion.
-/

set_option maxRecDepth 10000

namespace Hakrawler

/-! ## Go string primitives

Embeddings of the `strings` standard library functions used by
`src/hakrawler.go`, on `List Char`. -/

/-- Go `strings.HasPrefix` on char lists: `startsWithL l p` is true iff
`p` is an initial segment of `l`. -/
def startsWithL : List Char → List Char → Bool
  | _, [] => true
  | [], _ :: _ => false
  | c :: cs, d :: ds => c == d && startsWithL cs ds

/-- Go `strings.Contains` for a substring needle: true iff the needle
occurs contiguously inside the haystack. -/
def containsSubL : List Char → List Char → Bool
  | [], n => startsWithL [] n
  | c :: cs, n => startsWithL (c :: cs) n || containsSubL cs n

/-- Go `strings.Contains(s, ":")` specialised to one character. -/
def containsCharL (l : List Char) (c : Char) : Bool :=
  l.any (fun x => x == c)

/-- `occursIn n l` : the needle `n` occurs contiguously in `l`. -/
def occursIn (n l : List Char) : Prop :=
  ∃ a b, l = a ++ (n ++ b)

/-- Go `strings.Split(s, ";;")`: split on every non-overlapping
occurrence of the two-character separator `";;"`, left to right
(hakrawler.go line 219). -/
def splitSS : List Char → List (List Char)
  | [] => [[]]
  | ';' :: ';' :: rest => [] :: splitSS rest
  | c :: rest =>
    match splitSS rest with
    | [] => [[c]]
    | h :: t => (c :: h) :: t

/-- Go `strings.SplitN(s, ": ", 2)` when the separator is present:
split at the first occurrence of `": "` (hakrawler.go line 223).
Returns `none` when the separator does not occur. -/
def splitFirstCS : List Char → Option (List Char × List Char)
  | [] => none
  | c :: rest =>
    if c = ':' ∧ rest.head? = some ' ' then some ([], rest.tail)
    else (splitFirstCS rest).map (fun p => (c :: p.1, p.2))

/-- Go `strings.SplitN(s, ":", 2)` when the separator is present:
split at the first colon (hakrawler.go line 225). -/
def splitFirstColon : List Char → Option (List Char × List Char)
  | [] => none
  | c :: rest =>
    if c = ':' then some ([], rest)
    else (splitFirstColon rest).map (fun p => (c :: p.1, p.2))

/-- The whitespace predicate of Go `unicode.IsSpace`, restricted to the
Latin-1 range (header strings in this development are ASCII). -/
def isSpaceGo (c : Char) : Bool :=
  c == ' ' || c == '\t' || c == '\n' || (c == Char.ofNat 11) ||
  (c == Char.ofNat 12) || c == '\r' || (c == Char.ofNat 0x85) ||
  (c == Char.ofNat 0xA0)

/-- Go `strings.TrimSpace` (hakrawler.go line 229). -/
def trimSpaceL (l : List Char) : List Char :=
  ((l.dropWhile isSpaceGo).reverse.dropWhile isSpaceGo).reverse

/-! ## Header parsing (`parseHeaders`, hakrawler.go lines 212–233)

The global `headers` map is a Go map (`map[string]string`), modelled as
an association list with last-write-wins insertion. -/

/-- Assignment `m[k] = v` on a Go map modelled as an association list:
an existing binding of `k` is replaced. -/
def insertKV (m : List (List Char × List Char)) (k v : List Char) :
    List (List Char × List Char) :=
  match m with
  | [] => [(k, v)]
  | (k', v') :: rest =>
    if k' == k then (k, v) :: rest else (k', v') :: insertKV rest k v

/-- Go map lookup `m[k]`. -/
def lookupKV (m : List (List Char × List Char)) (k : List Char) :
    Option (List Char) :=
  match m with
  | [] => none
  | (k', v') :: rest => if k' == k then some v' else lookupKV rest k

/-- Outcome of `parseHeaders`: either the startup error (line 215), or
the final state of the global `headers` map — which stays `nil` when the
`-h` flag is empty (the `if rawHeaders != ""` guard on line 213). -/
inductive HeadersResult where
  | errNoColon : HeadersResult
  | noHeaders : HeadersResult
  | withHeaders (m : List (List Char × List Char)) : HeadersResult
deriving DecidableEq

/-- One iteration of the loop body of `parseHeaders`
(hakrawler.go lines 220–230): split the entry at the first `": "` if
present, else at the first `":"`, else skip (`continue`); on a split,
assign `headers[TrimSpace(parts[0])] = TrimSpace(parts[1])`. -/
def headerLoopStep (m : List (List Char × List Char)) (entry : List Char) :
    List (List Char × List Char) :=
  match splitFirstCS entry with
  | some (k, v) => insertKV m (trimSpaceL k) (trimSpaceL v)
  | none =>
    match splitFirstColon entry with
    | some (k, v) => insertKV m (trimSpaceL k) (trimSpaceL v)
    | none => m

/-- `parseHeaders` (hakrawler.go lines 212–233). -/
def parseHeadersGo (rawHeaders : List Char) : HeadersResult :=
  if rawHeaders == [] then .noHeaders
  else if !containsCharL rawHeaders ':' then .errNoColon
  else .withHeaders ((splitSS rawHeaders).foldl headerLoopStep [])

/-! ## A regular expression engine

`-subs` scoping (hakrawler.go line 111) builds a `regexp` from the seed
hostname and colly matches every candidate URL string against it with
Go's unanchored `Match`.  Go's regexp syntax is embedded as an AST with
character classes (`.` matches any character except newline), and Go's
`Match` as `matchString` below.  Matching is executable, by Brzozowski
derivatives. -/

/-- Regular expression AST: empty language, empty string, a character
class given by a predicate, alternation, concatenation, Kleene star. -/
inductive Reg where
  | emp : Reg
  | eps : Reg
  | cls (p : Char → Bool) : Reg
  | alt (r s : Reg) : Reg
  | cat (r s : Reg) : Reg
  | star (r : Reg) : Reg

/-- A single literal character (regexp `c`, or `\c` for escaped
metacharacters). -/
def Reg.chr (c : Char) : Reg := .cls (fun x => x == c)

/-- Whether `r` accepts the empty string. -/
def Reg.nullable : Reg → Bool
  | .emp => false
  | .eps => true
  | .cls _ => false
  | .alt r s => r.nullable || s.nullable
  | .cat r s => r.nullable && s.nullable
  | .star _ => true

/-- Brzozowski derivative of `r` by the character `c`. -/
def Reg.deriv : Reg → Char → Reg
  | .emp, _ => .emp
  | .eps, _ => .emp
  | .cls p, c => if p c then .eps else .emp
  | .alt r s, c => .alt (r.deriv c) (s.deriv c)
  | .cat r s, c =>
    if r.nullable then .alt (.cat (r.deriv c) s) (s.deriv c)
    else .cat (r.deriv c) s
  | .star r, c => .cat (r.deriv c) (.star r)

/-- Anchored matching: does `r` accept exactly the word `l`? -/
def Reg.rmatch (r : Reg) : List Char → Bool
  | [] => r.nullable
  | c :: l => (r.deriv c).rmatch l

/-- The literal regexp for a string (each character a literal). -/
def litStr : List Char → Reg
  | [] => .eps
  | c :: cs => .cat (.chr c) (litStr cs)

/-- Go regexp `.` : any character except newline. -/
def dotCls : Reg := .cls (fun c => c != '\n')

/-- Go regexp `.*`. -/
def dotStar : Reg := .star dotCls

/-- The universal regexp Σ* (any word), used to express Go's
unanchored matching. -/
def sigmaStar : Reg := .star (.cls (fun _ => true))

/-- Go's unanchored `Regexp.Match` / `MatchString`: some substring of
`l` is accepted by `r`; equivalently the word is in Σ*·r·Σ*. -/
def matchString (r : Reg) (l : List Char) : Bool :=
  (Reg.cat sigmaStar (Reg.cat r sigmaStar)).rmatch l

/-- The `-subs` scope regexp of hakrawler.go line 111:

`regexp.MustCompile(".*(\\.|\\/\\/)" + strings.ReplaceAll(hostname, ".", "\\.") + "((#|\\/|\\?).*)?")`

as an AST, parameterised by the hostname.  The `ReplaceAll` escapes the
dots, making the hostname a literal (hostnames contain no other regexp
metacharacters), so the middle factor is `litStr host`.  The pattern is
`.*` , then the group `(\.|\/\/)`, then the hostname literal, then the
optional group `((#|\/|\?).*)?`. -/
def subsSearchRe (host : List Char) : Reg :=
  .cat dotStar
    (.cat (.alt (.chr '.') (.cat (.chr '/') (.chr '/')))
      (.cat (litStr host)
        (.alt .eps
          (.cat (.alt (.chr '#') (.alt (.chr '/') (.chr '?'))) dotStar))))

/-! ## Go `net/url` (subset)

`src/hakrawler.go` reaches URL parsing through `url.Parse`
(`extractHostname`, line 237) and through colly's
`Request.AbsoluteURL`, which calls `base.Parse` =
`Parse` + `ResolveReference` of `net/url`.  The following is a
faithful embedding of `net/url`'s `Parse`, `ResolveReference`,
`String` and `Hostname` restricted to URLs without percent-escapes,
userinfo validation and IPv6 zones (none of which occur in the strings
analysed here). -/

/-- ASCII lower-casing, as applied by `net/url` to the scheme. -/
def lowerC (c : Char) : Char :=
  if 'A' ≤ c && c ≤ 'Z' then Char.ofNat (c.toNat + 32) else c

def isAlphaC (c : Char) : Bool :=
  ('a' ≤ c && c ≤ 'z') || ('A' ≤ c && c ≤ 'Z')

def isDigitC (c : Char) : Bool := '0' ≤ c && c ≤ '9'

/-- Go `strings.Cut(s, string(c))`: split at the first occurrence of the
character `c`, or `none` when absent. -/
def cutChar (l : List Char) (c : Char) : Option (List Char × List Char) :=
  match l with
  | [] => none
  | d :: rest =>
    if d == c then some ([], rest)
    else (cutChar rest c).map (fun p => (d :: p.1, p.2))

/-- Index of the last occurrence of `c` in `l` (Go `strings.LastIndex`
for a one-character needle). -/
def lastIndexChar (l : List Char) (c : Char) : Option Nat :=
  match l.reverse.findIdx? (fun x => x == c) with
  | none => none
  | some j => some (l.length - 1 - j)

/-- The record behind `net/url`'s `URL` struct (subset: no `User`,
`OmitHost`, raw/escaped distinctions). -/
structure GoURL where
  scheme : List Char
  opq : List Char
  host : List Char
  path : List Char
  rawQuery : List Char
  fragment : List Char
  forceQuery : Bool
deriving DecidableEq

/-- The zero `URL` value. -/
def GoURL.empty : GoURL := ⟨[], [], [], [], [], [], false⟩

/-- `net/url` `getScheme`: scan for a scheme followed by `:`.  Returns
`none` for the "missing protocol scheme" error, otherwise
`(scheme, rest)` — with an empty scheme when the input has none. -/
def getSchemeAux (orig : List Char) (acc : List Char) (atStart : Bool) :
    List Char → Option (List Char × List Char)
  | [] => some ([], orig)
  | c :: rest =>
    if isAlphaC c then getSchemeAux orig (c :: acc) false rest
    else if isDigitC c || c == '+' || c == '-' || c == '.' then
      (if atStart then some ([], orig) else getSchemeAux orig (c :: acc) false rest)
    else if c == ':' then
      (if atStart then none else some (acc.reverse, rest))
    else some ([], orig)

def getScheme (l : List Char) : Option (List Char × List Char) :=
  getSchemeAux l [] true l

/-- `net/url` `validOptionalPort`: empty, or `:` followed by digits. -/
def validOptionalPort (cp : List Char) : Bool :=
  match cp with
  | [] => true
  | ':' :: ds => ds.all isDigitC
  | _ => false

/-- `net/url` `parseHost` (subset: bracketed hosts are only checked for
the closing bracket; no percent-escape validation). -/
def parseHostSub (h : List Char) : Option (List Char) :=
  if h.head? == some '[' then
    match lastIndexChar h ']' with
    | none => none
    | some i => if validOptionalPort (h.drop (i + 1)) then some h else none
  else
    match lastIndexChar h ':' with
    | none => some h
    | some i => if validOptionalPort (h.drop i) then some h else none

/-- `net/url` `parseAuthority` (subset: userinfo before the last `@` is
accepted without validation). -/
def parseAuthority (a : List Char) : Option (List Char) :=
  match lastIndexChar a '@' with
  | none => parseHostSub a
  | some i => parseHostSub (a.drop (i + 1))

/-- `net/url` `parse(rawURL, viaRequest=false)` — everything of `Parse`
except the fragment cut.  `none` is a parse error. -/
def goParseCore (l : List Char) : Option GoURL :=
  if l == ['*'] then some { GoURL.empty with path := ['*'] }
  else
    match getScheme l with
    | none => none
    | some (sch, rest0) =>
      let sch := sch.map lowerC
      -- the ForceQuery special case, else cut the query at the first `?`
      let fq : Bool :=
        rest0.getLast? == some '?' && !containsCharL (rest0.dropLast) '?'
      let (rest, query) :=
        if fq then (rest0.dropLast, ([] : List Char))
        else
          match cutChar rest0 '?' with
          | none => (rest0, [])
          | some (a, b) => (a, b)
      if !startsWithL rest ['/'] && sch != [] then
        -- opaque URL such as `javascript:void(0)` or `mailto:x`
        some { GoURL.empty with
                scheme := sch
                opq := rest
                rawQuery := query
                forceQuery := fq }
      else
        -- viaRequest is false: a schemeless relative path may not have a
        -- colon in its first segment
        let segOK : Bool :=
          if !startsWithL rest ['/'] then
            let seg := match cutChar rest '/' with
              | none => rest
              | some (a, _) => a
            !containsCharL seg ':'
          else true
        if !segOK then none
        else if (sch != [] || !startsWithL rest ['/', '/', '/']) &&
            startsWithL rest ['/', '/'] then
          let afterSlashes := rest.drop 2
          let (authority, rest') :=
            match cutChar afterSlashes '/' with
            | none => (afterSlashes, ([] : List Char))
            | some (a, b) => (a, '/' :: b)
          match parseAuthority authority with
          | none => none
          | some host =>
            some { GoURL.empty with
                    scheme := sch
                    host := host
                    path := rest'
                    rawQuery := query
                    forceQuery := fq }
        else
          some { GoURL.empty with
                  scheme := sch
                  path := rest
                  rawQuery := query
                  forceQuery := fq }

/-- `net/url` `Parse`: cut the fragment at the first `#`, parse the
rest, reattach the fragment. -/
def goParse (l : List Char) : Option GoURL :=
  match cutChar l '#' with
  | none => goParseCore l
  | some (u, frag) =>
    match goParseCore u with
    | none => none
    | some url => some { url with fragment := frag }

/-- `net/url` `resolvePath`, restricted to paths without `.` or `..`
segments (all paths in this development): merge and root with `/`. -/
def resolvePath (base ref : List Char) : List Char :=
  let full :=
    if ref == [] then base
    else if ref.head? == some '/' then ref
    else
      (match lastIndexChar base '/' with
       | none => []
       | some i => base.take (i + 1)) ++ ref
  if full == [] then []
  else if full.head? == some '/' then full
  else '/' :: full

/-- `net/url` `(*URL).ResolveReference` (subset: no userinfo). -/
def resolveReference (base ref : GoURL) : GoURL :=
  let u1 := if ref.scheme == [] then { ref with scheme := base.scheme } else ref
  if ref.scheme != [] || ref.host != [] then
    -- absoluteURI / net_path
    { u1 with path := resolvePath ref.path [] }
  else if ref.opq != [] then
    { u1 with host := [], path := [] }
  else
    let u2 :=
      if ref.path == [] && !ref.forceQuery && ref.rawQuery == [] then
        let u2a := { u1 with rawQuery := base.rawQuery }
        if ref.fragment == [] then { u2a with fragment := base.fragment }
        else u2a
      else u1
    { u2 with host := base.host, path := resolvePath base.path ref.path }

/-- `net/url` `(*URL).String` (subset: no userinfo, `OmitHost`,
percent-escaping). -/
def urlString (u : GoURL) : List Char :=
  let schemePart := if u.scheme != [] then u.scheme ++ [':'] else []
  let core :=
    if u.opq != [] then u.opq
    else
      let authPart :=
        if (u.scheme != [] || u.host != []) &&
            (u.host != [] || u.path != []) then
          '/' :: '/' :: u.host
        else []
      let slashFix :=
        if u.path != [] && u.path.head? != some '/' && u.host != [] then
          ['/']
        else []
      let dotSlash :=
        if schemePart == [] && authPart == [] &&
            (let seg := match cutChar u.path '/' with
              | none => u.path
              | some (a, _) => a
             containsCharL seg ':') then
          ['.', '/']
        else []
      authPart ++ slashFix ++ dotSlash ++ u.path
  let q := if u.forceQuery || u.rawQuery != [] then '?' :: u.rawQuery else []
  let f := if u.fragment != [] then '#' :: u.fragment else []
  schemePart ++ core ++ q ++ f

/-- `net/url` `(*URL).Hostname`: the host with any valid `:port`
stripped and surrounding brackets removed. -/
def goHostname (u : GoURL) : List Char :=
  let h :=
    match lastIndexChar u.host ':' with
    | none => u.host
    | some i =>
      if validOptionalPort (u.host.drop i) then u.host.take i else u.host
  if h.head? == some '[' && h.getLast? == some ']' then
    (h.drop 1).dropLast
  else h

/-- `extractHostname` (hakrawler.go lines 236–242): `url.Parse` then
`Hostname()`.  Note that an input that parses but has no host yields
`some []`, not an error. -/
def extractHostnameGo (l : List Char) : Option (List Char) :=
  (goParse l).map goHostname

/-! ## colly (subset)

`src/hakrawler.go` delegates fetching, link resolution, scope checks,
deduplication and the depth limit to github.com/gocolly/colly/v2.  The
pieces its observable behaviour goes through are embedded here:
`Request.AbsoluteURL` (request.go), and the admission control of
`Collector.scrape` / `requestCheck` / `checkFilters` /
`isDomainAllowed` (colly.go). -/

/-- colly `Request.AbsoluteURL` (request.go): `""` for fragment links,
otherwise `base.Parse(u)` (= `Parse` + `ResolveReference`) with the
fragment cleared, rendered with `URL.String`.  The base is the page's
request URL (the model has no `<base>` tag). -/
def absoluteURL (page : GoURL) (u : List Char) : List Char :=
  if u.head? == some '#' then []
  else
    match goParse u with
    | none => []
    | some ref =>
      let abs := resolveReference page ref
      let abs := { abs with fragment := [] }
      let abs :=
        if abs.scheme == ['/', '/'] then { abs with scheme := page.scheme }
        else abs
      urlString abs

/-- The collector configuration set up in hakrawler.go lines 90–112:
`AllowedDomains` (empty list = no restriction, as in colly's
`isDomainAllowed`), `URLFilters` (empty = no restriction), and
`MaxDepth` (colly disables the depth check when it is `≤ 0`). -/
structure CollyConfig where
  allowedDomains : List (List Char)
  urlFilters : List Reg
  maxDepth : Int

/-- colly `isDomainAllowed` (colly.go; no DisallowedDomains are set by
hakrawler): every domain is allowed when the whitelist is empty,
otherwise exact membership. -/
def isDomainAllowed (cfg : CollyConfig) (domain : List Char) : Bool :=
  if cfg.allowedDomains.isEmpty then true
  else cfg.allowedDomains.any (fun d => d == domain)

/-- colly `checkFilters` URL-filter part: with a non-empty `URLFilters`
list, some filter must match the URL string (unanchored `Match`). -/
def urlFiltersOK (cfg : CollyConfig) (u : List Char) : Bool :=
  if cfg.urlFilters.isEmpty then true
  else cfg.urlFilters.any (fun r => matchString r u)

/-- colly `requestCheck` depth guard: rejects only when
`MaxDepth > 0 && MaxDepth < depth`.  Request depth starts at 1 for the
seed (`Collector.Visit`) and is `r.Depth+1` for links
(`Request.Visit`). -/
def depthOK (cfg : CollyConfig) (depth : Nat) : Bool :=
  !(cfg.maxDepth > 0 && cfg.maxDepth < (depth : Int))

/-- colly request admission (`scrape` + `requestCheck` + `checkFilters`
for a GET with revisit checking, as issued by `Collector.Visit` and
`Request.Visit`): the URL string must parse, pass the depth guard, the
URL filters, the domain whitelist (checked on the parsed hostname), and
must not have been visited before. -/
def requestAllowed (cfg : CollyConfig) (visited : List (List Char))
    (depth : Nat) (u : List Char) : Bool :=
  match goParse u with
  | none => false
  | some pu =>
    depthOK cfg depth && urlFiltersOK cfg u &&
    isDomainAllowed cfg (goHostname pu) &&
    !(visited.any (fun v => v == u))

/-! ## Collector construction (hakrawler.go lines 74–112) -/

/-- The `allowed_domains` slice of hakrawler.go lines 81–87: the seed
hostname, plus the `Host` header's value when the headers map is
non-nil and contains that key. -/
def allowedDomainsOf (hostname : List Char) (hres : HeadersResult) :
    List (List Char) :=
  let base := [hostname]
  match hres with
  | .withHeaders m =>
    (match lookupKV m "Host".toList with
     | some v => base ++ [v]
     | none => base)
  | _ => base

/-- The collector configuration as a function of the flags
(hakrawler.go lines 90–112): `colly.AllowedDomains(allowed_domains...)`
and `colly.MaxDepth(*depth)`; when `-subs` is set, `AllowedDomains` is
reset to nil and `URLFilters` is set to the hostname regexp of
line 111. -/
def collyConfigOf (subsInScope : Bool) (hostname : List Char)
    (hres : HeadersResult) (depth : Int) : CollyConfig :=
  if subsInScope then
    { allowedDomains := [], urlFilters := [subsSearchRe hostname],
      maxDepth := depth }
  else
    { allowedDomains := allowedDomainsOf hostname hres, urlFilters := [],
      maxDepth := depth }

/-! ## The three OnHTML handlers (hakrawler.go lines 124–138)

Each handler receives the element's attribute value; `printResult`
(lines 245–265) resolves it with `AbsoluteURL` and sends a formatted
line iff the resolution is non-empty.  Only the `a[href]` handler also
calls `e.Request.Visit(link)` (line 127); the `script[src]` and
`form[action]` handlers do not. -/

inductive ElemKind where
  | anchor : ElemKind
  | script : ElemKind
  | form : ElemKind
deriving DecidableEq

/-- The `sourceName` argument passed to `printResult` by each handler. -/
def sourceName : ElemKind → List Char
  | .anchor => ['h', 'r', 'e', 'f']
  | .script => ['s', 'c', 'r', 'i', 'p', 't']
  | .form => ['f', 'o', 'r', 'm']

/-- The Results produced by one handler invocation (`printResult`,
lines 245–264): the resolved absolute URL with its source kind, iff the
resolution is non-empty.  No scope or filter is consulted. -/
def handlerEmit (page : GoURL) (k : ElemKind) (attr : List Char) :
    List (List Char × List Char) :=
  let abs := absoluteURL page attr
  if abs == [] then [] else [(sourceName k, abs)]

/-- The `e.Request.Visit` calls made by one handler invocation: only
the anchor handler visits (line 127). -/
def handlerVisitCalls (k : ElemKind) (attr : List Char) : List (List Char) :=
  match k with
  | .anchor => [attr]
  | _ => []

/-- The WorkItems actually admitted for a handler invocation on a page
fetched at colly depth `d`: each `Request.Visit(link)` resolves the
link against the page and runs `scrape` at depth `d+1`, which admits
the URL iff `requestAllowed`. -/
def handlerEnqueues (cfg : CollyConfig) (visited : List (List Char))
    (page : GoURL) (d : Nat) (k : ElemKind) (attr : List Char) :
    List (List Char × Nat) :=
  (handlerVisitCalls k attr).filterMap (fun link =>
    let abs := absoluteURL page link
    if requestAllowed cfg visited (d + 1) abs then some (abs, d + 1)
    else none)

/-- Full per-element processing: emitted Results and admitted
WorkItems. -/
def processElem (cfg : CollyConfig) (visited : List (List Char))
    (page : GoURL) (d : Nat) (k : ElemKind) (attr : List Char) :
    List (List Char × List Char) × List (List Char × Nat) :=
  (handlerEmit page k attr, handlerEnqueues cfg visited page d k attr)

/-! ## Result formatting and emission (hakrawler.go lines 196–207 and 245–264)

`printResult` formats the Result into a single string `res` — the JSON
encoding with `-json`, `"[source] url"` with `-s`, the bare URL
otherwise — and sends it on the `results` channel.  The consumer loop
in `main` prints each received string, and with `-unique` only those
for which `isUnique(res)` is true; the dedup key is the *formatted*
string `res`, not the Result's URL. -/

/-- Lower-case hex digit. -/
def hexDigit (n : Nat) : Char :=
  if n < 10 then Char.ofNat ('0'.toNat + n)
  else Char.ofNat ('a'.toNat + (n - 10))

/-- Go `encoding/json` string escaping (with the default HTML escaping
of `json.Marshal`); subset: no U+2028/U+2029 or invalid-UTF-8
handling. -/
def jsonEscapeChar (c : Char) : List Char :=
  if c == '"' then ['\\', '"']
  else if c == '\\' then ['\\', '\\']
  else if c == '\n' then ['\\', 'n']
  else if c == '\r' then ['\\', 'r']
  else if c == '\t' then ['\\', 't']
  else if c == '<' || c == '>' || c == '&' || c.toNat < 0x20 then
    ['\\', 'u', '0', '0', hexDigit (c.toNat / 16), hexDigit (c.toNat % 16)]
  else [c]

/-- Go `json.Marshal(Result{Source: src, URL: url})` for the struct of
hakrawler.go lines 22–25: `\x7b"Source":"…","URL":"…"\x7d`. -/
def jsonResult (src url : List Char) : List Char :=
  "\x7b\"Source\":\"".toList ++ src.flatMap jsonEscapeChar ++
  "\",\"URL\":\"".toList ++ url.flatMap jsonEscapeChar ++ "\"\x7d".toList

/-- The formatted line `res` built by `printResult`
(hakrawler.go lines 248–256) from a Result with non-empty URL. -/
def formatResult (showJson showSource : Bool) (src url : List Char) :
    List Char :=
  if showJson then jsonResult src url
  else if showSource then '[' :: src ++ (']' :: ' ' :: url)
  else url

/-- `isUnique` (hakrawler.go lines 268–275) folded over the incoming
lines: keep a line iff it was not in the `sm` map, inserting it.  This
is the `-unique` consumer loop of lines 199–203. -/
def dedupFirstAux (seen : List (List Char)) :
    List (List Char) → List (List Char)
  | [] => []
  | x :: xs =>
    if seen.any (fun s => s == x) then dedupFirstAux seen xs
    else x :: dedupFirstAux (x :: seen) xs

/-- The consumer of the `results` channel (hakrawler.go lines 196–207):
with `-unique` each line is printed only on its first occurrence (the
second `for range` loop at lines 205–207 runs over the already-drained
closed channel and prints nothing); without `-unique` every line is
printed. -/
def emitLines (unique : Bool) (incoming : List (List Char)) :
    List (List Char) :=
  if unique then dedupFirstAux [] incoming else incoming

/-- The same pipeline at Result granularity: which Results of the
incoming stream get their line printed.  A Result survives iff its
formatted line was not already seen — mirroring that the channel
carries the formatted strings and `isUnique` keys on them. -/
def emitResults (unique showJson showSource : Bool)
    (seen : List (List Char)) :
    List (List Char × List Char) → List (List Char × List Char)
  | [] => []
  | r :: rs =>
    let line := formatResult showJson showSource r.1 r.2
    if unique then
      (if seen.any (fun s => s == line) then
        emitResults unique showJson showSource seen rs
      else r :: emitResults unique showJson showSource (line :: seen) rs)
    else r :: emitResults unique showJson showSource seen rs

/-! ## Startup control flow (hakrawler.go lines 55–79 and 162–209)

`main` exits with code 1 when `parseHeaders` fails (line 58).  The
crawl goroutine then extracts the seed hostname; on a parse error it
logs and returns (lines 76–79) *before* `close(results)` (line 193),
so the consumer loop in `main` blocks forever on the open channel (the
Go runtime aborts an all-asleep process; in no case is this an exit
with code 1).  Otherwise the crawl runs and `main` finishes normally
with exit code 0 — also when the timeout fires, which only logs. -/

inductive StartOutcome where
  | headerError : StartOutcome
  | seedParseHang : StartOutcome
  | crawls : StartOutcome
deriving DecidableEq

def mainStartup (rawHeaders seedURL : List Char) : StartOutcome :=
  match parseHeadersGo rawHeaders with
  | .errNoColon => .headerError
  | _ =>
    match extractHostnameGo seedURL with
    | none => .seedParseHang
    | some _ => .crawls

/-- The process exit code of each outcome: `none` when the process
never exits by itself (the consumer blocks on the unclosed channel). -/
def exitCodeOf : StartOutcome → Option Nat
  | .headerError => some 1
  | .seedParseHang => none
  | .crawls => some 0

/-! ## Crawl traversal (admitted requests)

The set of requests colly admits over a run: the seed enters at
request depth 1 (`c.Visit`, line 164/172), and each admitted page can
admit further links at its depth plus one, all through
`requestAllowed`.  Admission inserts the URL into colly's visited
store. -/

structure CrawlState where
  visited : List (List Char)
  dispatched : List (List Char × Nat)
deriving DecidableEq

/-- The initial state after `c.Visit(url)`: the seed is admitted at
colly depth 1 iff `requestAllowed` passes on the empty store. -/
def initCrawl (cfg : CollyConfig) (seed : List Char) : CrawlState :=
  if requestAllowed cfg [] 1 seed then ⟨[seed], [(seed, 1)]⟩ else ⟨[], []⟩

/-- One crawl step: a link discovered on a dispatched page of depth `d`
is admitted at depth `d+1` when `requestAllowed` passes. -/
inductive CrawlStep (cfg : CollyConfig) : CrawlState → CrawlState → Prop where
  | fetch (s : CrawlState) (page : List Char) (d : Nat) (link : List Char)
      (hp : (page, d) ∈ s.dispatched)
      (ha : requestAllowed cfg s.visited (d + 1) link = true) :
      CrawlStep cfg s ⟨link :: s.visited, (link, d + 1) :: s.dispatched⟩

/-- States reachable from the initial state. -/
inductive CrawlReach (cfg : CollyConfig) (seed : List Char) :
    CrawlState → Prop where
  | init : CrawlReach cfg seed (initCrawl cfg seed)
  | step {s t : CrawlState} : CrawlReach cfg seed s → CrawlStep cfg s t →
      CrawlReach cfg seed t

/-! ## The results channel under the timeout race
(hakrawler.go lines 162–194 and 257–263)

On the timeout path, `main`'s goroutine executes `close(results)`
(line 193) right after the `select` (line 178) releases it — while the
inner goroutine of line 170 is still running `c.Visit`/`c.Wait`, whose
collector callbacks keep calling `printResult`.  Nothing orders those
`results <- result` sends (line 263) with the close, so a valid
schedule is any interleaving of the supervisor's single close with the
workers' pending sends.  A send on the closed channel panics; the
deferred `recover()` of lines 258–262 swallows the panic, so the value
is lost but the process survives. -/

inductive ChanAct where
  | close : ChanAct
  | send (v : List Char) : ChanAct

/-- Channel/consumer state: how many closes have executed, which sends
were delivered (channel still open), and which sends hit the closed
channel — each of those panicked and was recovered in `printResult`. -/
structure ChanState where
  closedCount : Nat
  delivered : List (List Char)
  droppedAfterClose : List (List Char)

def chanStep (st : ChanState) (a : ChanAct) : ChanState :=
  match a with
  | .close => { st with closedCount := st.closedCount + 1 }
  | .send v =>
    if st.closedCount == 0 then
      { st with delivered := st.delivered ++ [v] }
    else
      { st with droppedAfterClose := st.droppedAfterClose ++ [v] }

def chanRun (acts : List ChanAct) : ChanState :=
  acts.foldl chanStep ⟨0, [], []⟩

/-- `Interleave xs ys zs`: `zs` is an order-preserving merge of `xs`
and `ys`. -/
inductive Interleave : List ChanAct → List ChanAct → List ChanAct → Prop where
  | nil : Interleave [] [] []
  | left {x : ChanAct} {xs ys zs : List ChanAct} :
      Interleave xs ys zs → Interleave (x :: xs) ys (x :: zs)
  | right {y : ChanAct} {xs ys zs : List ChanAct} :
      Interleave xs ys zs → Interleave xs (y :: ys) (y :: zs)

/-- The schedules possible on the timeout path with `pending` Results
still being produced by workers when the timer fires: any
order-preserving merge of the supervisor's one `close` with the
workers' sends. -/
def TimeoutSchedule (pending : List (List Char)) (σ : List ChanAct) : Prop :=
  Interleave [ChanAct.close] (pending.map ChanAct.send) σ

/-! ## Concrete instances shared by several claims -/

/-- `endsWithL l s` : `s` is a final segment of `l`. -/
def endsWithL (l s : List Char) : Bool :=
  startsWithL l.reverse s.reverse

/-- The spec's host-boundary subdomain relation: `h` is a proper
subdomain of `s` iff `h` ends with `"." ++ s`. -/
def isSubdomainOf (h s : List Char) : Bool :=
  endsWithL h ('.' :: s)

/-- The parsed seed page `http://hostname.com/` used by the concrete
counterexamples. -/
def seedPage : GoURL :=
  { GoURL.empty with
     scheme := ['h', 't', 't', 'p']
     host := "hostname.com".toList
     path := ['/'] }

/-- The collector configuration for seed `http://hostname.com/` with
default flags (`-subs` off, no headers, `-d 2`). -/
def cfgPlain : CollyConfig :=
  collyConfigOf false "hostname.com".toList .noHeaders 2

/-- The collector configuration for the same seed with `-subs`. -/
def cfgSubs : CollyConfig :=
  collyConfigOf true "hostname.com".toList .noHeaders 2

/-- The collector configuration for the same seed with `-d 0`. -/
def cfgDepth0 : CollyConfig :=
  collyConfigOf false "hostname.com".toList .noHeaders 0

/-- The seed URL of the concrete counterexamples. -/
def seedURL1 : List Char := "http://hostname.com/".toList

/-- An in-scope link discovered on the seed page. -/
def linkURL1 : List Char := "http://hostname.com/a".toList

/-! # Theorems

## The regular expression engine -/

theorem rmatch_emp (l : List Char) : Reg.emp.rmatch l = false := by
  induction l with
  | nil => rfl
  | cons c l ih => exact ih

theorem rmatch_eps (l : List Char) : Reg.eps.rmatch l = true ↔ l = [] := by
  cases l with
  | nil => simp [Reg.rmatch, Reg.nullable]
  | cons c l =>
    simp only [Reg.rmatch, Reg.deriv]
    rw [rmatch_emp]
    simp

theorem rmatch_cls (p : Char → Bool) (l : List Char) :
    (Reg.cls p).rmatch l = true ↔ ∃ c, l = [c] ∧ p c = true := by
  cases l with
  | nil => simp [Reg.rmatch, Reg.nullable]
  | cons c l =>
    cases l with
    | nil =>
      constructor
      · intro hh
        have hh' : (if p c then Reg.eps else Reg.emp).rmatch [] = true := hh
        by_cases h : p c = true
        · exact ⟨c, rfl, h⟩
        · rw [if_neg h] at hh'
          rw [rmatch_emp] at hh'
          simp at hh'
      · rintro ⟨d, hd, hpd⟩
        obtain rfl : c = d := by simpa using hd
        show (if p c then Reg.eps else Reg.emp).rmatch [] = true
        rw [if_pos hpd]
        rfl
    | cons d l =>
      constructor
      · intro hh
        have hh' : (if p c then Reg.eps else Reg.emp).rmatch (d :: l) = true := hh
        by_cases h : p c = true
        · rw [if_pos h] at hh'
          have := (rmatch_eps (d :: l)).mp hh'
          simp at this
        · rw [if_neg h] at hh'
          rw [rmatch_emp] at hh'
          simp at hh'
      · rintro ⟨e, he, -⟩
        simp at he

theorem rmatch_alt (r s : Reg) (l : List Char) :
    (Reg.alt r s).rmatch l = true ↔
      r.rmatch l = true ∨ s.rmatch l = true := by
  induction l generalizing r s with
  | nil => simp [Reg.rmatch, Reg.nullable]
  | cons c l ih => exact ih (r.deriv c) (s.deriv c)

theorem rmatch_cat (r s : Reg) (l : List Char) :
    (Reg.cat r s).rmatch l = true ↔
      ∃ a b, l = a ++ b ∧ r.rmatch a = true ∧ s.rmatch b = true := by
  induction l generalizing r s with
  | nil =>
    simp only [Reg.rmatch, Reg.nullable, Bool.and_eq_true]
    constructor
    · rintro ⟨hr, hs⟩
      exact ⟨[], [], rfl, hr, hs⟩
    · rintro ⟨a, b, hab, hr, hs⟩
      obtain ⟨rfl, rfl⟩ := List.append_eq_nil.mp hab.symm
      exact ⟨hr, hs⟩
  | cons c l ih =>
    simp only [Reg.rmatch, Reg.deriv]
    by_cases hn : r.nullable = true
    · rw [if_pos hn, rmatch_alt, ih]
      constructor
      · rintro (⟨a, b, hab, hr, hs⟩ | hs)
        · exact ⟨c :: a, b, by simp [hab], hr, hs⟩
        · exact ⟨[], c :: l, rfl, hn, hs⟩
      · rintro ⟨a, b, hab, hr, hs⟩
        cases a with
        | nil =>
          right
          rw [List.nil_append] at hab
          rw [← hab] at hs
          exact hs
        | cons a0 a =>
          left
          obtain ⟨rfl, rfl⟩ : a0 = c ∧ l = a ++ b := by
            constructor
            · exact (List.cons_eq_cons.mp hab.symm).1
            · exact ((List.cons_eq_cons.mp hab.symm).2).symm
          exact ⟨a, b, rfl, hr, hs⟩
    · rw [if_neg hn, ih]
      constructor
      · rintro ⟨a, b, hab, hr, hs⟩
        exact ⟨c :: a, b, by simp [hab], hr, hs⟩
      · rintro ⟨a, b, hab, hr, hs⟩
        cases a with
        | nil =>
          rw [List.nil_append] at hab
          rw [← hab] at hs
          exact absurd hr hn
        | cons a0 a =>
          obtain ⟨rfl, rfl⟩ : a0 = c ∧ l = a ++ b := by
            constructor
            · exact (List.cons_eq_cons.mp hab.symm).1
            · exact ((List.cons_eq_cons.mp hab.symm).2).symm
          exact ⟨a, b, rfl, hr, hs⟩

theorem rmatch_chr (c : Char) (l : List Char) :
    (Reg.chr c).rmatch l = true ↔ l = [c] := by
  rw [Reg.chr, rmatch_cls]
  constructor
  · rintro ⟨d, rfl, hd⟩
    obtain rfl : d = c := by simpa using hd
    rfl
  · rintro rfl
    exact ⟨c, rfl, by simp⟩

theorem rmatch_litStr (s l : List Char) :
    (litStr s).rmatch l = true ↔ l = s := by
  induction s generalizing l with
  | nil => simpa [litStr] using rmatch_eps l
  | cons c s ih =>
    simp only [litStr]
    rw [rmatch_cat]
    constructor
    · rintro ⟨a, b, rfl, ha, hb⟩
      obtain rfl := (rmatch_chr c a).mp ha
      obtain rfl := (ih b).mp hb
      rfl
    · rintro rfl
      exact ⟨[c], s, rfl, (rmatch_chr c [c]).mpr rfl, (ih s).mpr rfl⟩

theorem rmatch_clsStar (p : Char → Bool) (l : List Char) :
    (Reg.star (Reg.cls p)).rmatch l = true ↔ ∀ c ∈ l, p c = true := by
  induction l with
  | nil => simp [Reg.rmatch, Reg.nullable]
  | cons c l ih =>
    simp only [Reg.rmatch, Reg.deriv]
    by_cases h : p c = true
    · rw [if_pos h]
      constructor
      · intro hh
        obtain ⟨a, b, hab, ha, hb⟩ := (rmatch_cat _ _ _).mp hh
        obtain rfl := (rmatch_eps a).mp ha
        rw [List.nil_append] at hab
        subst hab
        intro d hd
        rcases List.mem_cons.mp hd with rfl | hd
        · exact h
        · exact ih.mp hb d hd
      · intro hh
        exact (rmatch_cat _ _ _).mpr
          ⟨[], l, rfl, (rmatch_eps []).mpr rfl,
            ih.mpr (fun d hd => hh d (List.mem_cons_of_mem c hd))⟩
    · rw [if_neg h]
      constructor
      · intro hh
        obtain ⟨a, b, hab, ha, hb⟩ := (rmatch_cat _ _ _).mp hh
        rw [rmatch_emp] at ha
        exact absurd ha (by simp)
      · intro hh
        exact absurd (hh c (List.mem_cons_self c l)) h

theorem sigmaStar_all (l : List Char) : sigmaStar.rmatch l = true :=
  (rmatch_clsStar _ l).mpr (fun _ _ => rfl)

theorem dotStar_nil : dotStar.rmatch [] = true := rfl

/-- Anything the `-subs` regexp accepts decomposes around `"." ++ host`
or `"//" ++ host`. -/
theorem subsRe_decomp (host m : List Char)
    (h : (subsSearchRe host).rmatch m = true) :
    ∃ m1 n m4, (n = ['.'] ∨ n = ['/', '/']) ∧ m = m1 ++ (n ++ host) ++ m4 := by
  unfold subsSearchRe at h
  obtain ⟨m1, t1, rfl, h1, h2⟩ := (rmatch_cat _ _ _).mp h
  obtain ⟨n, t2, rfl, hg, h3⟩ := (rmatch_cat _ _ _).mp h2
  obtain ⟨m3, m4, rfl, hh, -⟩ := (rmatch_cat _ _ _).mp h3
  obtain rfl := (rmatch_litStr host m3).mp hh
  refine ⟨m1, n, m4, ?_, by simp [List.append_assoc]⟩
  rcases (rmatch_alt _ _ _).mp hg with hdot | hsl
  · exact Or.inl ((rmatch_chr _ _).mp hdot)
  · right
    obtain ⟨a, b, rfl, ha, hb⟩ := (rmatch_cat _ _ _).mp hsl
    obtain rfl := (rmatch_chr _ _).mp ha
    obtain rfl := (rmatch_chr _ _).mp hb
    rfl

/-- Conversely the `-subs` regexp accepts `"." ++ host` and
`"//" ++ host` themselves. -/
theorem subsRe_construct (host n : List Char)
    (hn : n = ['.'] ∨ n = ['/', '/']) :
    (subsSearchRe host).rmatch (n ++ host) = true := by
  unfold subsSearchRe
  refine (rmatch_cat _ _ _).mpr ⟨[], n ++ host, rfl, dotStar_nil, ?_⟩
  refine (rmatch_cat _ _ _).mpr ⟨n, host, rfl, ?_, ?_⟩
  · rcases hn with rfl | rfl
    · exact (rmatch_alt _ _ _).mpr (Or.inl ((rmatch_chr _ _).mpr rfl))
    · exact (rmatch_alt _ _ _).mpr (Or.inr ((rmatch_cat _ _ _).mpr
        ⟨['/'], ['/'], rfl, (rmatch_chr _ _).mpr rfl, (rmatch_chr _ _).mpr rfl⟩))
  · refine (rmatch_cat _ _ _).mpr
      ⟨host, [], (List.append_nil host).symm, (rmatch_litStr _ _).mpr rfl, ?_⟩
    exact (rmatch_alt _ _ _).mpr (Or.inl ((rmatch_eps []).mpr rfl))

/-- Characterisation of the `-subs` URL filter (hakrawler.go line 111
under Go's unanchored `Match`): a URL string passes the filter iff it
contains `"." ++ hostname` or `"//" ++ hostname` anywhere as a
substring.  The filter never inspects the URL's actual hostname
component. -/
theorem subsFilter_chars (host u : List Char) :
    matchString (subsSearchRe host) u = true ↔
      (occursIn ('.' :: host) u ∨ occursIn ('/' :: '/' :: host) u) := by
  unfold matchString
  constructor
  · intro h
    obtain ⟨a, t, rfl, -, h2⟩ := (rmatch_cat _ _ _).mp h
    obtain ⟨m, b, rfl, hm, -⟩ := (rmatch_cat _ _ _).mp h2
    obtain ⟨m1, n, m4, hn, rfl⟩ := subsRe_decomp host m hm
    rcases hn with rfl | rfl
    · exact Or.inl ⟨a ++ m1, m4 ++ b, by simp [List.append_assoc]⟩
    · exact Or.inr ⟨a ++ m1, m4 ++ b, by simp [List.append_assoc]⟩
  · intro h
    rcases h with ⟨x, y, rfl⟩ | ⟨x, y, rfl⟩
    · refine (rmatch_cat _ _ _).mpr ⟨x, _, rfl, sigmaStar_all x, ?_⟩
      exact (rmatch_cat _ _ _).mpr
        ⟨'.' :: host, y, rfl, subsRe_construct host ['.'] (Or.inl rfl),
          sigmaStar_all y⟩
    · refine (rmatch_cat _ _ _).mpr ⟨x, _, rfl, sigmaStar_all x, ?_⟩
      exact (rmatch_cat _ _ _).mpr
        ⟨'/' :: '/' :: host, y, rfl,
          subsRe_construct host ['/', '/'] (Or.inr rfl), sigmaStar_all y⟩

/-! ## colly request admission: projections -/

/-- Splitting a successful `requestAllowed` into its constituent
checks. -/
theorem requestAllowed_parts (cfg : CollyConfig) (vis : List (List Char))
    (dep : Nat) (u : List Char) (h : requestAllowed cfg vis dep u = true) :
    ∃ pu, goParse u = some pu ∧ depthOK cfg dep = true ∧
      urlFiltersOK cfg u = true ∧
      isDomainAllowed cfg (goHostname pu) = true ∧
      vis.any (fun v => v == u) = false := by
  unfold requestAllowed at h
  cases hp : goParse u with
  | none =>
    rw [hp] at h
    exact absurd h (by simp)
  | some pu =>
    rw [hp] at h
    simp only [Bool.and_eq_true, Bool.not_eq_true'] at h
    exact ⟨pu, rfl, h.1.1.1, h.1.1.2, h.1.2, h.2⟩

/-- With `-subs` the only URL filter is the hostname regexp. -/
theorem urlFiltersOK_subs (host : List Char) (hres : HeadersResult)
    (dep : Int) (u : List Char) :
    urlFiltersOK (collyConfigOf true host hres dep) u =
      matchString (subsSearchRe host) u := by
  simp [urlFiltersOK, collyConfigOf, List.any]

/-! ## Claim C2: `-subs` scope -/

/-- Claim C2, counterexample: with `-subs` on for seed hostname
`hostname.com`, the URL `http://hostname.com.evil.com/` — whose
hostname `hostname.com.evil.com` neither equals `hostname.com` nor is
a subdomain of it — passes colly's full request admission (the regexp
of hakrawler.go line 111 matches the substring `//hostname.com`), so
the crawler fetches an unrelated domain.  This refutes the claim that
every fetched URL's hostname equals the seed hostname or is a proper
subdomain of it. -/
theorem c2_counterexample :
    requestAllowed cfgSubs [] 1 "http://hostname.com.evil.com/".toList = true ∧
    (goParse "http://hostname.com.evil.com/".toList).map goHostname =
      some "hostname.com.evil.com".toList ∧
    ¬("hostname.com.evil.com".toList = "hostname.com".toList ∨
      isSubdomainOf "hostname.com.evil.com".toList "hostname.com".toList
        = true) := by
  exact ⟨by decide, by decide, by decide⟩

/-- Claim C2, amended: with `-subs` on, a URL is fetched only if it
passes the hostname regexp of hakrawler.go line 111, and that
unanchored regexp accepts a URL string iff it contains
`"." ++ hostname` or `"//" ++ hostname` anywhere as a substring — a
condition on the URL text, not on its hostname component, which also
admits unrelated domains such as `hostname.com.evil.com` or
`hostname.community`. -/
theorem c2_amended (host : List Char) (hres : HeadersResult) (dep : Int)
    (vis : List (List Char)) (d : Nat) (u : List Char) :
    (matchString (subsSearchRe host) u = true ↔
      (occursIn ('.' :: host) u ∨ occursIn ('/' :: '/' :: host) u)) ∧
    (requestAllowed (collyConfigOf true host hres dep) vis d u = true →
      (occursIn ('.' :: host) u ∨ occursIn ('/' :: '/' :: host) u)) := by
  refine ⟨subsFilter_chars host u, fun h => ?_⟩
  obtain ⟨pu, -, -, hf, -, -⟩ := requestAllowed_parts _ _ _ _ h
  rw [urlFiltersOK_subs host hres dep u] at hf
  exact (subsFilter_chars host u).mp hf

/-- Claim C2, amended, witness at the concrete escape URL. -/
theorem c2_amended_witness :
    occursIn ('.' :: "hostname.com".toList)
        "http://hostname.com.evil.com/".toList ∨
      occursIn ('/' :: '/' :: "hostname.com".toList)
        "http://hostname.com.evil.com/".toList :=
  (c2_amended "hostname.com".toList .noHeaders 2 [] 1
      "http://hostname.com.evil.com/".toList).2 (by decide)

/-! ## Claim C3: the depth limit -/

/-- Full form of colly's depth guard when the configured depth is at
least 1. -/
theorem depthOK_le (cfg : CollyConfig) (dep : Nat) (h1 : 1 ≤ cfg.maxDepth)
    (h : depthOK cfg dep = true) : (dep : Int) ≤ cfg.maxDepth := by
  unfold depthOK at h
  simp only [Bool.not_eq_true', Bool.and_eq_false_iff,
    decide_eq_false_iff_not, not_lt] at h
  rcases h with h | h
  · omega
  · omega

/-- Claim C3, counterexample: with `-d 0` colly's depth check is
disabled (`MaxDepth > 0` fails), so a crawl from
`http://hostname.com/` dispatches the WorkItem for
`http://hostname.com/a` at colly request depth 2 — depth 1 in the
claim's seed-is-0 numbering, exceeding the configured maxDepth 0.
This refutes the claim for the configured maxDepth 0. -/
theorem c3_counterexample :
    CrawlReach cfgDepth0 seedURL1
      ⟨[linkURL1, seedURL1], [(linkURL1, 2), (seedURL1, 1)]⟩ ∧
    cfgDepth0.maxDepth = 0 ∧ ((2 : Int) - 1) > cfgDepth0.maxDepth := by
  refine ⟨?_, by decide, by decide⟩
  have h0 : initCrawl cfgDepth0 seedURL1 = ⟨[seedURL1], [(seedURL1, 1)]⟩ := by
    decide
  have hinit : CrawlReach cfgDepth0 seedURL1 ⟨[seedURL1], [(seedURL1, 1)]⟩ :=
    h0 ▸ CrawlReach.init
  exact CrawlReach.step hinit
    (CrawlStep.fetch _ seedURL1 1 linkURL1 (by decide) (by decide))

/-- Claim C3, amended: colly counts the seed request at depth 1 and a
link found on a page of depth `d` at depth `d+1`, and rejects a request
at enqueue time iff `maxDepth > 0` and its depth exceeds `maxDepth`.
Hence, provided the configured depth is at least 1, no dispatched
WorkItem has colly depth above `maxDepth` — in the claim's seed-is-0
numbering, none has depth above `maxDepth - 1`, which is stricter than
the claim's bound; but with `-d 0` (or a negative depth) the check is
disabled entirely and arbitrarily deep WorkItems are dispatched. -/
theorem c3_amended (cfg : CollyConfig) (seed : List Char) (s : CrawlState)
    (h1 : 1 ≤ cfg.maxDepth) (hr : CrawlReach cfg seed s) :
    ∀ u dep, (u, dep) ∈ s.dispatched →
      (dep : Int) ≤ cfg.maxDepth ∧ (dep : Int) - 1 < cfg.maxDepth := by
  induction hr with
  | init =>
    intro u dep hm
    unfold initCrawl at hm
    by_cases h : requestAllowed cfg [] 1 seed = true
    · rw [if_pos h] at hm
      simp only [List.mem_singleton, Prod.mk.injEq] at hm
      obtain ⟨rfl, rfl⟩ := hm
      omega
    · rw [if_neg h] at hm
      simp at hm
  | step hprev hstep ih =>
    cases hstep with
    | fetch page d link hp ha =>
      intro u dep hm
      rcases List.mem_cons.mp hm with heq | hmem
      · obtain ⟨rfl, rfl⟩ := Prod.mk.injEq .. |>.mp heq
        obtain ⟨pu, -, hdok, -, -, -⟩ := requestAllowed_parts _ _ _ _ ha
        have := depthOK_le cfg (d + 1) h1 hdok
        omega
      · exact ih u dep hmem

/-- Claim C3, amended, witness: the seed request of the default
configuration (`-d 2`). -/
theorem c3_amended_witness :
    ((1 : Nat) : Int) ≤ cfgPlain.maxDepth ∧
      ((1 : Nat) : Int) - 1 < cfgPlain.maxDepth := by
  have h0 : initCrawl cfgPlain seedURL1 = ⟨[seedURL1], [(seedURL1, 1)]⟩ := by
    decide
  exact c3_amended cfgPlain seedURL1 _ (by decide) CrawlReach.init seedURL1 1
    (by rw [h0]; decide)

/-! ## Claim C1: closing the results channel under the timeout race -/

theorem interleave_nil_left {ys zs : List ChanAct}
    (h : Interleave [] ys zs) : zs = ys := by
  induction ys generalizing zs with
  | nil => cases h; rfl
  | cons y ys ih =>
    cases h with
    | right h' => exact congrArg (y :: ·) (ih h')

/-- Sends executed after the channel is closed are all dropped (each
panicking send is recovered in `printResult`). -/
theorem sendsClosedRun (vs : List (List Char)) :
    ∀ st : ChanState, st.closedCount ≠ 0 →
      (vs.map ChanAct.send).foldl chanStep st =
        ⟨st.closedCount, st.delivered, st.droppedAfterClose ++ vs⟩ := by
  induction vs with
  | nil =>
    intro st h
    cases st
    simp
  | cons v vs ih =>
    intro st h
    simp only [List.map_cons, List.foldl_cons]
    have hstep : chanStep st (ChanAct.send v) =
        { st with droppedAfterClose := st.droppedAfterClose ++ [v] } := by
      simp only [chanStep]
      rw [if_neg (by simpa using h)]
    rw [hstep, ih _ (by simpa using h)]
    cases st
    simp

/-- Any timeout-path schedule runs to: one close, the sends before the
close delivered, the sends after it dropped. -/
theorem timeoutRunAux (ys : List (List Char)) :
    ∀ (σ : List ChanAct) (st : ChanState),
      Interleave [ChanAct.close] (ys.map ChanAct.send) σ →
      st.closedCount = 0 →
      ∃ pre post, ys = pre ++ post ∧
        σ.foldl chanStep st =
          ⟨1, st.delivered ++ pre, st.droppedAfterClose ++ post⟩ := by
  induction ys with
  | nil =>
    intro σ st hI h0
    simp only [List.map_nil] at hI
    cases hI with
    | left hI' =>
      obtain rfl := interleave_nil_left hI'
      refine ⟨[], [], rfl, ?_⟩
      cases st
      simp_all [chanStep]
  | cons y ys ih =>
    intro σ st hI h0
    simp only [List.map_cons] at hI
    cases hI with
    | left hI' =>
      obtain rfl := interleave_nil_left hI'
      refine ⟨[], y :: ys, rfl, ?_⟩
      simp only [List.foldl_cons]
      have h2 : chanStep (chanStep st ChanAct.close) (ChanAct.send y) =
          { st with closedCount := st.closedCount + 1,
                    droppedAfterClose := st.droppedAfterClose ++ [y] } := by
        simp only [chanStep]
        rw [if_neg (by simp)]
      rw [h2, sendsClosedRun ys _ (by simp)]
      cases st
      simp_all [List.append_assoc]
    | right hI' =>
      simp only [List.foldl_cons]
      have hs : chanStep st (ChanAct.send y) =
          { st with delivered := st.delivered ++ [y] } := by
        simp only [chanStep]
        rw [if_pos (by simpa using h0)]
      rw [hs]
      obtain ⟨pre, post, hys, hrun⟩ :=
        ih _ { st with delivered := st.delivered ++ [y] } hI'
          (by simpa using h0)
      refine ⟨y :: pre, post, by simp [hys], ?_⟩
      rw [hrun]
      simp [List.append_assoc]

theorem timeout_run (pending : List (List Char)) (σ : List ChanAct)
    (h : TimeoutSchedule pending σ) :
    ∃ pre post, pending = pre ++ post ∧ chanRun σ = ⟨1, pre, post⟩ := by
  obtain ⟨pre, post, hp, hr⟩ :=
    timeoutRunAux pending σ ⟨0, [], []⟩ h rfl
  exact ⟨pre, post, hp, by simpa using hr⟩

/-- Claim C1, counterexample: on the timeout path the schedule in which
`close(results)` (hakrawler.go line 193) runs before a worker's pending
`results <- result` (line 263) is valid — nothing orders the two — and
under it a writer does write to the closed output stream: the send
lands after the close (it panics and is recovered at lines 258–262).
This refutes the claim that no writer ever writes to the output stream
after it has been closed. -/
theorem c1_counterexample :
    TimeoutSchedule [linkURL1] [ChanAct.close, ChanAct.send linkURL1] ∧
    (chanRun [ChanAct.close, ChanAct.send linkURL1]).droppedAfterClose ≠ [] := by
  constructor
  · exact Interleave.left (Interleave.right Interleave.nil)
  · decide

/-- Claim C1, amended: the results channel is closed exactly once (the
single `close` of line 193 — the loop body runs once), but a worker may
still attempt a send after the close; that send panics, the panic is
recovered inside `printResult` (lines 258–262), and the Result is
silently lost.  The delivered output is exactly the prefix of Results
sent before the close, and the process never crashes. -/
theorem c1_amended (pending : List (List Char)) (σ : List ChanAct)
    (h : TimeoutSchedule pending σ) :
    (chanRun σ).closedCount = 1 ∧
    ∃ pre post, pending = pre ++ post ∧
      (chanRun σ).delivered = pre ∧
      (chanRun σ).droppedAfterClose = post := by
  obtain ⟨pre, post, hp, hr⟩ := timeout_run pending σ h
  rw [hr]
  exact ⟨rfl, pre, post, hp, rfl, rfl⟩

/-- Claim C1, amended, witness: the race-free schedule where the send
precedes the close. -/
theorem c1_amended_witness :
    (chanRun [ChanAct.send linkURL1, ChanAct.close]).closedCount = 1 ∧
    ∃ pre post, [linkURL1] = pre ++ post ∧
      (chanRun [ChanAct.send linkURL1, ChanAct.close]).delivered = pre ∧
      (chanRun [ChanAct.send linkURL1, ChanAct.close]).droppedAfterClose
        = post :=
  c1_amended [linkURL1] [ChanAct.send linkURL1, ChanAct.close]
    (Interleave.right (Interleave.left Interleave.nil))

/-! ## Claim C4: `-unique` deduplication -/

/-- Boolean membership via `==` coincides with list membership. -/
theorem anyBeq (seen : List (List Char)) (x : List Char) :
    seen.any (fun s => s == x) = true ↔ x ∈ seen := by
  simp only [List.any_eq_true, beq_iff_eq]
  constructor
  · rintro ⟨s, hs, rfl⟩
    exact hs
  · intro hx
    exact ⟨x, hx, rfl⟩

/-- The `isUnique` loop prints no line twice, and never a line already
recorded as seen. -/
theorem dedupFirstAux_nodup (l : List (List Char)) :
    ∀ seen, (dedupFirstAux seen l).Nodup ∧
      ∀ x ∈ dedupFirstAux seen l, x ∉ seen := by
  induction l with
  | nil => intro seen; simp [dedupFirstAux]
  | cons x xs ih =>
    intro seen
    simp only [dedupFirstAux]
    by_cases h : x ∈ seen
    · rw [if_pos ((anyBeq seen x).mpr h)]
      exact ih seen
    · rw [if_neg (fun hc => h ((anyBeq seen x).mp hc))]
      obtain ⟨hn, hni⟩ := ih (x :: seen)
      refine ⟨List.nodup_cons.mpr ⟨fun hx => ?_, hn⟩, ?_⟩
      · exact (hni x hx) (List.mem_cons_self x seen)
      · intro z hz
        rcases List.mem_cons.mp hz with rfl | hz'
        · exact h
        · exact fun hzs => (hni z hz') (List.mem_cons_of_mem x hzs)

/-- The Result-granularity emitter agrees with the string-level
consumer loop: mapping the formatter over the kept Results gives
exactly the deduplicated line stream. -/
theorem emitResults_lines (j s : Bool) (rs : List (List Char × List Char)) :
    ∀ seen,
      (emitResults true j s seen rs).map
          (fun r => formatResult j s r.1 r.2) =
        dedupFirstAux seen (rs.map (fun r => formatResult j s r.1 r.2)) := by
  induction rs with
  | nil => intro seen; rfl
  | cons r rs ih =>
    intro seen
    simp only [emitResults, dedupFirstAux, List.map_cons, if_true]
    by_cases h :
        seen.any (fun s' => s' == formatResult j s r.1 r.2) = true
    · rw [if_pos h, if_pos h]
      exact ih seen
    · rw [if_neg h, if_neg h]
      simp only [List.map_cons]
      rw [ih]

/-- Claim C4, counterexample: in `-s` mode with `-unique`, the same URL
discovered once as an href and once as a script src yields two distinct
formatted lines (`[href] u` and `[script] u`), both of which pass
`isUnique` — the dedup key is the formatted line, not the Result's URL
— so the URL appears twice in the emitted output.  This refutes the
claim for the annotated (and JSON) output modes. -/
theorem c4_counterexample :
    (emitResults true false true []
        [("href".toList, "http://hostname.com/x".toList),
         ("script".toList, "http://hostname.com/x".toList)]).map Prod.snd
      = ["http://hostname.com/x".toList, "http://hostname.com/x".toList] ∧
    ¬ ((emitResults true false true []
        [("href".toList, "http://hostname.com/x".toList),
         ("script".toList, "http://hostname.com/x".toList)]).map
          Prod.snd).Nodup := by
  exact ⟨by decide, by decide⟩

/-- Claim C4, amended: with `-unique`, no formatted output *line* is
ever emitted twice, in any output mode — `isUnique` performs the
test-and-insert on the formatted line.  In plain mode the line is the
URL itself, so no URL appears twice; in `-s` or `-json` mode the same
URL may be emitted once per distinct source annotation. -/
theorem c4_amended (j s : Bool) (rs : List (List Char × List Char)) :
    (emitLines true (rs.map (fun r => formatResult j s r.1 r.2))).Nodup ∧
    (emitLines true (rs.map (fun r => formatResult j s r.1 r.2)) =
      (emitResults true j s [] rs).map (fun r => formatResult j s r.1 r.2)) ∧
    (j = false → s = false →
      ((emitResults true j s [] rs).map Prod.snd).Nodup) := by
  refine ⟨(dedupFirstAux_nodup _ []).1, (emitResults_lines j s rs []).symm,
    ?_⟩
  rintro rfl rfl
  have hmap : (emitResults true false false [] rs).map Prod.snd =
      (emitResults true false false [] rs).map
        (fun r => formatResult false false r.1 r.2) := rfl
  rw [hmap, emitResults_lines]
  exact (dedupFirstAux_nodup _ []).1

/-- Claim C4, amended, witness: plain mode on the double-discovery
stream. -/
theorem c4_amended_witness :
    ((emitResults true false false []
        [("href".toList, "http://hostname.com/x".toList),
         ("script".toList, "http://hostname.com/x".toList)]).map
          Prod.snd).Nodup :=
  (c4_amended false false
      [("href".toList, "http://hostname.com/x".toList),
       ("script".toList, "http://hostname.com/x".toList)]).2.2 rfl rfl

/-! ## Claim C10: `parseHeaders` -/

/-- A string with no colon contains no `": "` either. -/
theorem containsSub_colon_of (l : List Char)
    (h : containsCharL l ':' = false) :
    containsSubL l [':', ' '] = false := by
  induction l with
  | nil => rfl
  | cons c l ih =>
    simp only [containsCharL, List.any_cons, Bool.or_eq_false_iff] at h
    simp only [containsSubL, startsWithL, Bool.or_eq_false_iff]
    exact ⟨by simp [h.1], ih (by simpa [containsCharL] using h.2)⟩

/-- Characterisation of `splitFirstColon`: it fails iff there is no
colon, and a successful split is at the *first* colon. -/
theorem splitFirstColon_eq (l : List Char) :
    (splitFirstColon l = none ↔ containsCharL l ':' = false) ∧
    (∀ a b, splitFirstColon l = some (a, b) →
      l = a ++ ':' :: b ∧ containsCharL a ':' = false) := by
  induction l with
  | nil => simp [splitFirstColon, containsCharL]
  | cons c l ih =>
    by_cases hc : c = ':'
    · subst hc
      constructor
      · simp [splitFirstColon, containsCharL]
      · intro a b h
        simp only [splitFirstColon, if_pos rfl, Option.some.injEq,
          Prod.mk.injEq] at h
        obtain ⟨rfl, rfl⟩ := h
        exact ⟨rfl, rfl⟩
    · constructor
      · simp only [splitFirstColon, if_neg hc, Option.map_eq_none',
          containsCharL, List.any_cons, Bool.or_eq_false_iff]
        rw [ih.1]
        simp [containsCharL, hc]
      · intro a b h
        simp only [splitFirstColon, if_neg hc, Option.map_eq_some'] at h
        obtain ⟨⟨a', b'⟩, hp, heq⟩ := h
        simp only [Prod.mk.injEq] at heq
        obtain ⟨rfl, rfl⟩ := heq
        obtain ⟨rfl, hnc⟩ := ih.2 a' b' hp
        refine ⟨rfl, ?_⟩
        simp [containsCharL, hc]
        simpa [containsCharL] using hnc

/-- Characterisation of `splitFirstCS`: it fails iff `": "` does not
occur, and a successful split is at the *first* occurrence. -/
theorem splitFirstCS_eq (l : List Char) :
    (splitFirstCS l = none ↔ containsSubL l [':', ' '] = false) ∧
    (∀ a b, splitFirstCS l = some (a, b) →
      l = a ++ ':' :: ' ' :: b ∧ containsSubL a [':', ' '] = false) := by
  induction l with
  | nil => simp [splitFirstCS, containsSubL, startsWithL]
  | cons c l ih =>
    by_cases hc : c = ':' ∧ l.head? = some ' '
    · obtain ⟨rfl, hh⟩ := hc
      cases l with
      | nil => simp at hh
      | cons d l' =>
        obtain rfl : d = ' ' := by simpa using hh
        constructor
        · simp [splitFirstCS, containsSubL, startsWithL]
        · intro a b h
          have hcond : (':' : Char) = ':' ∧ (' ' :: l').head? = some ' ' :=
            ⟨rfl, rfl⟩
          simp only [splitFirstCS, if_pos hcond, Option.some.injEq,
            Prod.mk.injEq] at h
          obtain ⟨rfl, rfl⟩ := h
          exact ⟨rfl, rfl⟩
    · have hsw : startsWithL (c :: l) [':', ' '] = false := by
        cases l with
        | nil => simp [startsWithL]
        | cons d l' =>
          simp only [startsWithL, Bool.and_eq_false_iff]
          by_cases h1 : c = ':'
          · subst h1
            right
            have : ¬ d = ' ' := by
              intro h2
              exact hc ⟨rfl, by simp [h2]⟩
            simp [Bool.and_eq_false_iff, this]
          · left
            simp [h1]
      constructor
      · simp only [splitFirstCS, if_neg hc, Option.map_eq_none',
          containsSubL, hsw, Bool.false_or]
        exact ih.1
      · intro a b h
        simp only [splitFirstCS, if_neg hc, Option.map_eq_some'] at h
        obtain ⟨⟨a', b'⟩, hp, heq⟩ := h
        simp only [Prod.mk.injEq] at heq
        obtain ⟨rfl, rfl⟩ := heq
        obtain ⟨rfl, hnc⟩ := ih.2 a' b' hp
        refine ⟨rfl, ?_⟩
        simp only [containsSubL, hnc, Bool.or_false]
        cases a' with
        | nil => simp [startsWithL]
        | cons d a'' =>
          by_cases h1 : c = ':'
          · subst h1
            have hd : ¬ d = ' ' := by
              intro h2
              exact hc ⟨rfl, by simp [h2]⟩
            simp [startsWithL, hd]
          · simp [startsWithL, h1]

/-- Claim C10: `parseHeaders` returns its error iff the raw flag is
non-empty and contains no colon anywhere; on success of a non-empty
flag the headers map is the left fold of the loop body over the
`";;"`-separated entries, where each entry is split at the first
`": "` if present, else at the first `":"`, with both sides trimmed —
and an entry containing no colon at all is skipped without an error. -/
theorem c10_parse_headers (raw entry : List Char)
    (m : List (List Char × List Char)) :
    (parseHeadersGo raw = .errNoColon ↔
      raw ≠ [] ∧ containsCharL raw ':' = false) ∧
    (parseHeadersGo raw = .noHeaders ↔ raw = []) ∧
    (∀ hm, parseHeadersGo raw = .withHeaders hm →
      hm = (splitSS raw).foldl headerLoopStep []) ∧
    (containsCharL entry ':' = false → headerLoopStep m entry = m) ∧
    (∀ a b, splitFirstCS entry = some (a, b) →
      entry = a ++ ':' :: ' ' :: b ∧ containsSubL a [':', ' '] = false ∧
      headerLoopStep m entry = insertKV m (trimSpaceL a) (trimSpaceL b)) ∧
    (splitFirstCS entry = none →
      ∀ a b, splitFirstColon entry = some (a, b) →
        entry = a ++ ':' :: b ∧ containsCharL a ':' = false ∧
        headerLoopStep m entry = insertKV m (trimSpaceL a) (trimSpaceL b)) := by
  refine ⟨?_, ?_, ?_, ?_, ?_, ?_⟩
  · unfold parseHeadersGo
    by_cases h0 : raw = []
    · subst h0
      simp
    · rw [if_neg (by simpa using h0)]
      by_cases h1 : containsCharL raw ':' = false
      · simp [h1, h0]
      · simp only [Bool.not_eq_false] at h1
        simp [h1, h0]
  · unfold parseHeadersGo
    by_cases h0 : raw = []
    · subst h0
      simp
    · rw [if_neg (by simpa using h0)]
      by_cases h1 : containsCharL raw ':' = false
      · simp [h1, h0]
      · simp only [Bool.not_eq_false] at h1
        simp [h1, h0]
  · intro hm
    unfold parseHeadersGo
    by_cases h0 : raw = []
    · subst h0
      simp
    · rw [if_neg (by simpa using h0)]
      by_cases h1 : containsCharL raw ':' = false
      · simp [h1]
      · simp only [Bool.not_eq_false] at h1
        simp only [h1, Bool.not_true, Bool.false_eq_true, if_false,
          HeadersResult.withHeaders.injEq]
        intro h
        exact h.symm
  · intro h
    unfold headerLoopStep
    rw [(splitFirstCS_eq entry).1.mpr (containsSub_colon_of entry h),
      (splitFirstColon_eq entry).1.mpr h]
  · intro a b h
    obtain ⟨hdec, hfirst⟩ := (splitFirstCS_eq entry).2 a b h
    refine ⟨hdec, hfirst, ?_⟩
    unfold headerLoopStep
    rw [h]
  · intro hnone a b h
    obtain ⟨hdec, hfirst⟩ := (splitFirstColon_eq entry).2 a b h
    refine ⟨hdec, hfirst, ?_⟩
    unfold headerLoopStep
    rw [hnone, h]

/-- Claim C10, witness: the header flag
`"Cookie: a=b;;Host:h;;junk"`. -/
theorem c10_parse_headers_witness :
    "Cookie: a=b;;Host:h;;junk".toList = "Cookie".toList ++ ':' :: ' ' ::
        "a=b;;Host:h;;junk".toList ∧
    containsSubL "Cookie".toList [':', ' '] = false ∧
    headerLoopStep [] "Cookie: a=b;;Host:h;;junk".toList =
      insertKV [] (trimSpaceL "Cookie".toList)
        (trimSpaceL "a=b;;Host:h;;junk".toList) :=
  (c10_parse_headers "Cookie: a=b;;Host:h;;junk".toList
      "Cookie: a=b;;Host:h;;junk".toList []).2.2.2.2.1
    "Cookie".toList "a=b;;Host:h;;junk".toList (by decide)

/-! ## Claim C5: empty and `javascript:` attribute values -/

/-- A URL already in colly's visited store is never admitted again. -/
theorem requestAllowed_visited_false (cfg : CollyConfig)
    (vis : List (List Char)) (dep : Nat) (u : List Char) (h : u ∈ vis) :
    requestAllowed cfg vis dep u = false := by
  unfold requestAllowed
  cases hp : goParse u with
  | none => rfl
  | some pu =>
    have ha : vis.any (fun v => v == u) = true := (anyBeq vis u).mpr h
    simp [ha]

/-- A URL whose parsed hostname fails the domain whitelist is never
admitted. -/
theorem requestAllowed_domain_false (cfg : CollyConfig)
    (vis : List (List Char)) (dep : Nat) (u : List Char) (pu : GoURL)
    (hp : goParse u = some pu)
    (hdom : isDomainAllowed cfg (goHostname pu) = false) :
    requestAllowed cfg vis dep u = false := by
  unfold requestAllowed
  rw [hp]
  simp [hdom]

/-- A URL failing the URL filters is never admitted. -/
theorem requestAllowed_filters_false (cfg : CollyConfig)
    (vis : List (List Char)) (dep : Nat) (u : List Char)
    (hf : urlFiltersOK cfg u = false) :
    requestAllowed cfg vis dep u = false := by
  unfold requestAllowed
  cases hp : goParse u with
  | none => rfl
  | some pu => simp [hf]

/-- Unfolding the anchor handler's enqueue behaviour. -/
theorem handlerEnqueues_anchor (cfg : CollyConfig) (vis : List (List Char))
    (page : GoURL) (d : Nat) (attr : List Char) :
    handlerEnqueues cfg vis page d .anchor attr =
      if requestAllowed cfg vis (d + 1) (absoluteURL page attr) then
        [(absoluteURL page attr, d + 1)]
      else [] := by
  unfold handlerEnqueues handlerVisitCalls
  by_cases h : requestAllowed cfg vis (d + 1) (absoluteURL page attr) = true
  · simp [List.filterMap, h]
  · simp only [Bool.not_eq_true] at h
    simp [List.filterMap, h]

/-- The parsed form of `javascript:void(0)`. -/
theorem goParse_js :
    goParse "javascript:void(0)".toList =
      some ⟨"javascript".toList, "void(0)".toList, [], [], [], [], false⟩ := by
  decide

/-- Claim C5, counterexample: on the page `http://hostname.com/`, an
empty `href=""` resolves (per `net/url` reference resolution, through
colly's `AbsoluteURL`) to the page's own URL, and
`href="javascript:void(0)"` parses fine and resolves to itself — both
non-empty, so `printResult` emits a Result for each.  This refutes the
claim that such values produce no Result. -/
theorem c5_counterexample :
    absoluteURL seedPage [] = seedURL1 ∧
    absoluteURL seedPage "javascript:void(0)".toList =
      "javascript:void(0)".toList ∧
    handlerEmit seedPage .anchor [] = [(sourceName .anchor, seedURL1)] ∧
    handlerEmit seedPage .anchor "javascript:void(0)".toList =
      [(sourceName .anchor, "javascript:void(0)".toList)] := by
  exact ⟨by decide, by decide, by decide, by decide⟩

/-- Claim C5, amended: an anchor href *beginning with `#`* resolves to
nothing and produces no Result; but an empty href resolves to the
page's own URL and `javascript:void(0)` resolves to itself, and each is
emitted as a Result (silently — not an error).  Neither enqueues new
work under the program's configurations: the empty href's target is
the page itself, which is already in colly's visited store, and the
`javascript:` URL has an empty hostname, so it fails the
`AllowedDomains` whitelist (`-subs` off) or the URL filter
(`-subs` on). -/
theorem c5_amended (dep : Int) (vis : List (List Char)) (d : Nat)
    (page : GoURL) (k : ElemKind) (attr : List Char) :
    (attr.head? = some '#' → handlerEmit page k attr = []) ∧
    handlerEmit seedPage .anchor [] = [(sourceName .anchor, seedURL1)] ∧
    handlerEmit seedPage .anchor "javascript:void(0)".toList =
      [(sourceName .anchor, "javascript:void(0)".toList)] ∧
    (seedURL1 ∈ vis →
      handlerEnqueues (collyConfigOf false "hostname.com".toList
          .noHeaders dep) vis seedPage d .anchor [] = [] ∧
      handlerEnqueues (collyConfigOf true "hostname.com".toList
          .noHeaders dep) vis seedPage d .anchor [] = []) ∧
    handlerEnqueues (collyConfigOf false "hostname.com".toList
        .noHeaders dep) vis seedPage d .anchor
        "javascript:void(0)".toList = [] ∧
    handlerEnqueues (collyConfigOf true "hostname.com".toList
        .noHeaders dep) vis seedPage d .anchor
        "javascript:void(0)".toList = [] := by
  have habs0 : absoluteURL seedPage [] = seedURL1 := by decide
  have habsJ : absoluteURL seedPage "javascript:void(0)".toList =
      "javascript:void(0)".toList := by decide
  refine ⟨?_, by decide, by decide, ?_, ?_, ?_⟩
  · intro h
    unfold handlerEmit absoluteURL
    rw [h]
    rfl
  · intro hvis
    constructor
    · rw [handlerEnqueues_anchor, habs0,
        requestAllowed_visited_false _ _ _ _ hvis]
      rfl
    · rw [handlerEnqueues_anchor, habs0,
        requestAllowed_visited_false _ _ _ _ hvis]
      rfl
  · rw [handlerEnqueues_anchor, habsJ,
      requestAllowed_domain_false _ _ _ _ _ goParse_js (by rfl)]
    rfl
  · rw [handlerEnqueues_anchor, habsJ,
      requestAllowed_filters_false _ _ _ _ (by rfl)]
    rfl

/-- Claim C5, amended, witness: concrete fragment href, visited set and
depth. -/
theorem c5_amended_witness :
    handlerEmit seedPage .anchor "#top".toList = [] ∧
    handlerEnqueues (collyConfigOf false "hostname.com".toList
        .noHeaders 2) [seedURL1] seedPage 1 .anchor [] = [] :=
  ⟨(c5_amended 2 [seedURL1] 1 seedPage .anchor "#top".toList).1 rfl,
    ((c5_amended 2 [seedURL1] 1 seedPage .anchor "#top".toList).2.2.2.1
      (by decide)).1⟩

/-! ## Claim C6: startup errors and exit codes -/

/-- Claim C6, counterexample: a seed URL that `url.Parse` rejects
(`"://x"`, missing protocol scheme) makes the crawl goroutine log and
return before `close(results)`, so the program blocks instead of
exiting with code 1; and a seed with no hostname at all
(`"seedwithnohost"`) is not an error: `extractHostname` returns the
empty hostname and the run completes with exit code 0.  This refutes
both halves of the claim. -/
theorem c6_counterexample :
    mainStartup [] "://x".toList = .seedParseHang ∧
    exitCodeOf (mainStartup [] "://x".toList) = none ∧
    extractHostnameGo "seedwithnohost".toList = some [] ∧
    mainStartup [] "seedwithnohost".toList = .crawls ∧
    exitCodeOf (mainStartup [] "seedwithnohost".toList) = some 0 := by
  exact ⟨by decide, by decide, by decide, by decide, by decide⟩

/-- Claim C6, amended: the program exits with code 1 exactly on a
header-parse failure.  A seed URL that `url.Parse` rejects makes the
crawl goroutine return early (after logging) without closing the
results channel, so the consumer blocks forever — the run does not exit
with code 1.  A seed that parses but has no hostname is not detected at
all: the crawl runs against an empty allowed domain and the program
exits 0; normal completion, including the timeout cutoff, also exits
0. -/
theorem c6_amended (rawHeaders seed : List Char) :
    (exitCodeOf (mainStartup rawHeaders seed) = some 1 ↔
      parseHeadersGo rawHeaders = .errNoColon) ∧
    (parseHeadersGo rawHeaders ≠ .errNoColon → goParse seed = none →
      mainStartup rawHeaders seed = .seedParseHang ∧
        exitCodeOf (mainStartup rawHeaders seed) = none) ∧
    (parseHeadersGo rawHeaders ≠ .errNoColon → goParse seed ≠ none →
      mainStartup rawHeaders seed = .crawls ∧
        exitCodeOf (mainStartup rawHeaders seed) = some 0) := by
  unfold mainStartup extractHostnameGo
  cases hh : parseHeadersGo rawHeaders <;> cases hs : goParse seed <;>
    simp [exitCodeOf]

/-- Claim C6, amended, witness: well-formed flags. -/
theorem c6_amended_witness :
    mainStartup [] seedURL1 = .crawls ∧
      exitCodeOf (mainStartup [] seedURL1) = some 0 :=
  (c6_amended [] seedURL1).2.2 (by decide) (by decide)

/-! ## Claim C7: which discoveries are crawled further -/

/-- Claim C7, counterexample: a `script src="/app.js"` discovered on
the seed page resolves to an in-scope URL that colly would admit, yet
the script handler issues no `Request.Visit` at all — only the anchor
handler does (hakrawler.go line 127 versus lines 131–138) — so no
WorkItem is ever enqueued for it.  This refutes the claim that
in-scope script and form discoveries are crawled further like anchor
hrefs. -/
theorem c7_counterexample :
    absoluteURL seedPage "/app.js".toList =
      "http://hostname.com/app.js".toList ∧
    requestAllowed cfgPlain [] 2 "http://hostname.com/app.js".toList
      = true ∧
    handlerVisitCalls .script "/app.js".toList = [] ∧
    handlerEnqueues cfgPlain [] seedPage 1 .script "/app.js".toList = [] := by
  exact ⟨by decide, by decide, rfl, rfl⟩

/-- Claim C7, amended: only anchor `href` discoveries are fed back into
the frontier; the `script[src]` and `form[action]` handlers never
enqueue anything.  For an anchor whose resolved URL passes colly's
admission, a WorkItem at the page's depth plus one is enqueued, as the
claim describes. -/
theorem c7_amended (cfg : CollyConfig) (vis : List (List Char))
    (page : GoURL) (d : Nat) (attr : List Char) :
    (∀ k, k ≠ ElemKind.anchor →
      handlerEnqueues cfg vis page d k attr = []) ∧
    (requestAllowed cfg vis (d + 1) (absoluteURL page attr) = true →
      handlerEnqueues cfg vis page d .anchor attr =
        [(absoluteURL page attr, d + 1)]) := by
  constructor
  · intro k hk
    cases k with
    | anchor => exact absurd rfl hk
    | script => rfl
    | form => rfl
  · intro h
    rw [handlerEnqueues_anchor, if_pos h]

/-- Claim C7, amended, witness: the in-scope anchor `/a` on the seed
page is enqueued at depth 2, the script `/a` is not. -/
theorem c7_amended_witness :
    handlerEnqueues cfgPlain [] seedPage 1 .script "/a".toList = [] ∧
    handlerEnqueues cfgPlain [] seedPage 1 .anchor "/a".toList =
      [(absoluteURL seedPage "/a".toList, 2)] :=
  ⟨(c7_amended cfgPlain [] seedPage 1 "/a".toList).1 .script (by decide),
    (c7_amended cfgPlain [] seedPage 1 "/a".toList).2 (by decide)⟩

/-! ## Claim C8: emission is scope-free -/

/-- Claim C8: every discovered href, script or form item whose
attribute resolves to a non-empty absolute URL is emitted as a
`Result{source, url}`, and the emitted Results do not depend on the
collector's scope configuration, visited store or depth — only the
decision to crawl further is filtered.  `printResult` runs before, and
independently of, colly's admission checks. -/
theorem c8_emission_scope_free (cfg cfg' : CollyConfig)
    (vis vis' : List (List Char)) (d d' : Nat) (page : GoURL)
    (k : ElemKind) (attr : List Char) :
    (processElem cfg vis page d k attr).1 =
      (processElem cfg' vis' page d' k attr).1 ∧
    (absoluteURL page attr ≠ [] →
      (processElem cfg vis page d k attr).1 =
        [(sourceName k, absoluteURL page attr)]) := by
  refine ⟨rfl, fun h => ?_⟩
  unfold processElem handlerEmit
  rw [if_neg (by simpa using h)]

/-- Claim C8, witness: the out-of-scope URL `http://other.com/x` found
as a script src on the seed page is emitted even though colly would
never crawl it. -/
theorem c8_emission_scope_free_witness :
    (processElem cfgPlain [] seedPage 1 .script
        "http://other.com/x".toList).1 =
      [(sourceName .script,
        absoluteURL seedPage "http://other.com/x".toList)] :=
  (c8_emission_scope_free cfgPlain cfgSubs [] [] 1 2 seedPage .script
      "http://other.com/x".toList).2 (by decide)

/-! ## Claim C9: scope with `-subs` off -/

/-- The `allowed_domains` slice always contains the seed hostname, so
it is never empty. -/
theorem allowedDomainsOf_ne_nil (hostname : List Char)
    (hres : HeadersResult) : allowedDomainsOf hostname hres ≠ [] := by
  cases hres with
  | errNoColon => simp [allowedDomainsOf]
  | noHeaders => simp [allowedDomainsOf]
  | withHeaders m =>
    cases hv : lookupKV m "Host".toList with
    | none =>
      simp [allowedDomainsOf,
        show lookupKV m ('H' :: 'o' :: 's' :: 't' :: []) = none from hv]
    | some v =>
      simp [allowedDomainsOf,
        show lookupKV m ('H' :: 'o' :: 's' :: 't' :: []) = some v from hv]

/-- Membership in `allowed_domains`: the seed hostname, or the value of
a configured `Host` header. -/
theorem mem_allowedDomainsOf (hostname x : List Char)
    (hres : HeadersResult) :
    x ∈ allowedDomainsOf hostname hres ↔
      x = hostname ∨ ∃ m v, hres = .withHeaders m ∧
        lookupKV m "Host".toList = some v ∧ x = v := by
  cases hres with
  | errNoColon => simp [allowedDomainsOf]
  | noHeaders => simp [allowedDomainsOf]
  | withHeaders m =>
    cases hv : lookupKV m "Host".toList with
    | none =>
      simp [allowedDomainsOf,
        show lookupKV m ('H' :: 'o' :: 's' :: 't' :: []) = none from hv]
    | some v =>
      have hv' : lookupKV m ('H' :: 'o' :: 's' :: 't' :: []) = some v := hv
      simp [allowedDomainsOf, hv, hv', eq_comm]

/-- A domain passing a non-empty whitelist is in the whitelist. -/
theorem isDomainAllowed_mem (cfg : CollyConfig) (dom : List Char)
    (hne : cfg.allowedDomains ≠ [])
    (h : isDomainAllowed cfg dom = true) :
    dom ∈ cfg.allowedDomains := by
  unfold isDomainAllowed at h
  rw [if_neg (by simpa [List.isEmpty_iff] using hne)] at h
  obtain ⟨x, hx, hbeq⟩ := List.any_eq_true.mp h
  obtain rfl : x = dom := by simpa using hbeq
  exact hx

/-- Claim C9: with `-subs` off, every URL colly admits for fetching has
a hostname that is in the `allowed_domains` slice — the seed hostname
or the value of a configured `Host` header — and a configured `Host`
header's value is indeed added to that slice at startup
(hakrawler.go lines 81–87). -/
theorem c9_scope_plain (hostname : List Char) (hres : HeadersResult)
    (dep : Int) (vis : List (List Char)) (d : Nat) (u : List Char) :
    (requestAllowed (collyConfigOf false hostname hres dep) vis d u
        = true →
      ∃ pu, goParse u = some pu ∧
        (goHostname pu = hostname ∨
          ∃ m v, hres = .withHeaders m ∧
            lookupKV m "Host".toList = some v ∧ goHostname pu = v)) ∧
    (∀ m v, hres = .withHeaders m → lookupKV m "Host".toList = some v →
      v ∈ allowedDomainsOf hostname hres) := by
  constructor
  · intro h
    obtain ⟨pu, hp, -, -, hdom, -⟩ := requestAllowed_parts _ _ _ _ h
    refine ⟨pu, hp, ?_⟩
    have hmem : goHostname pu ∈ allowedDomainsOf hostname hres :=
      isDomainAllowed_mem _ _ (allowedDomainsOf_ne_nil hostname hres) hdom
    exact (mem_allowedDomainsOf hostname _ hres).mp hmem
  · intro m v hm hv
    subst hm
    exact (mem_allowedDomainsOf hostname v _).mpr
      (Or.inr ⟨m, v, rfl, hv, rfl⟩)

/-- Claim C9, witness: crawling through a `Host: proxy.local` override;
the fetched URL `http://proxy.local/` is admitted and its hostname is
the header's value. -/
theorem c9_scope_plain_witness :
    ∃ pu, goParse "http://proxy.local/".toList = some pu ∧
      (goHostname pu = "hostname.com".toList ∨
        ∃ m v, HeadersResult.withHeaders
            [("Host".toList, "proxy.local".toList)] =
              .withHeaders m ∧
          lookupKV m "Host".toList = some v ∧ goHostname pu = v) :=
  (c9_scope_plain "hostname.com".toList
      (.withHeaders [("Host".toList, "proxy.local".toList)]) 2 [] 1
      "http://proxy.local/".toList).1 (by decide)

end Hakrawler





